import Mathlib

/-!
Verification of the market-data ingestion core (`backend/market_data.py`).

The Python service keeps, per (symbol, interval) pair, a `deque` of candles
with `maxlen = Config.HISTORY_LIMIT` (300).  A candle is the list
`[openTime, open, high, low, close, volume]`.  We embed:

* the `deque` append/extend semantics (eviction from the front once the
  maxlen is exceeded),
* the single-candle upsert rule of `_process_stream_data` (lines 167-183),
* the snapshot reader `get_candles` (lines 64-71) with Python's `[-limit:]`
  slice semantics,
* the websocket reconnect loop `_ws_loop` (lines 124-142) as a per-iteration
  event trace, and
* the full message-parsing pipeline of `_process_stream_data` over a model
  of JSON values, including the Python dynamic-typing failure modes.
-/

/-- A stored candle in the well-typed (integer timestamp) regime used by
`_process_stream_data` once fields are converted: `[t, o, h, l, c, v]` with
`t = k['t']` an integer timestamp and the five price/volume floats modelled
as rationals (they are only parsed, stored and copied, never computed with). -/
structure Candle where
  t : Int
  o : Rat
  h : Rat
  l : Rat
  c : Rat
  v : Rat
  deriving DecidableEq, Repr

/-- `deque.append` with `maxlen = cap`: the element is appended and elements
are discarded from the front while the length exceeds `cap`. -/
def dequeAppend (cap : Nat) (buf : List Candle) (c : Candle) : List Candle :=
  let ys := buf ++ [c]
  ys.drop (ys.length - cap)

/-- `deque.extend` with `maxlen = cap` (used by `_backfill_single`, line 107:
`self.store[symbol][interval].extend(formatted)`): each element is appended
in order, evicting from the front as the maxlen is exceeded. -/
def dequeExtend (cap : Nat) (buf : List Candle) (cs : List Candle) : List Candle :=
  cs.foldl (dequeAppend cap) buf

/-- The upsert rule of `_process_stream_data` (lines 167-183): on an empty
buffer append; otherwise compare the incoming time with the tail's time:
equal replaces the tail in place (`buffer[-1] = candle`), greater appends
(deque eviction applies), less does nothing. -/
def upsert (cap : Nat) (buf : List Candle) (c : Candle) : List Candle :=
  match buf.getLast? with
  | none => dequeAppend cap buf c
  | some last =>
    if c.t = last.t then buf.dropLast ++ [c]
    else if last.t < c.t then dequeAppend cap buf c
    else buf

/-- Folding the single-candle upsert rule over a list, in order. -/
def upsertAll (cap : Nat) (buf : List Candle) (cs : List Candle) : List Candle :=
  cs.foldl (upsert cap) buf

/-- Strictly ascending `openTime` along the stored sequence. -/
def StrictAsc (buf : List Candle) : Prop :=
  List.Chain' (fun a b => a.t < b.t) buf

/-- Executable check for `StrictAsc`. -/
def strictAscB : List Candle → Bool
  | a :: b :: rest => decide (a.t < b.t) && strictAscB (b :: rest)
  | _ => true

theorem strictAscB_iff : ∀ l : List Candle, strictAscB l = true ↔ StrictAsc l
  | [] => by
    simp only [strictAscB]
    exact iff_of_true trivial List.chain'_nil
  | [a] => by
    simp only [strictAscB]
    exact iff_of_true trivial (List.chain'_singleton a)
  | a :: b :: rest => by
    have ih := strictAscB_iff (b :: rest)
    unfold StrictAsc at ih ⊢
    simp only [strictAscB, Bool.and_eq_true, decide_eq_true_eq, ih]
    rw [List.chain'_cons]

instance : DecidablePred StrictAsc := fun buf =>
  decidable_of_iff _ (strictAscB_iff buf)

namespace MarketData

theorem dequeAppend_length (cap : Nat) (buf : List Candle) (c : Candle) :
    (dequeAppend cap buf c).length = min (buf.length + 1) cap := by
  simp only [dequeAppend, List.length_drop, List.length_append, List.length_cons,
    List.length_nil]
  omega

theorem dequeAppend_sorted (cap : Nat) (buf : List Candle) (c : Candle)
    (hs : StrictAsc buf) (hlt : ∀ x ∈ buf.getLast?, x.t < c.t) :
    StrictAsc (dequeAppend cap buf c) := by
  have happ : StrictAsc (buf ++ [c]) := by
    refine List.Chain'.append hs (List.chain'_singleton _) ?_
    intro x hx y hy
    simp only [List.head?_cons, Option.mem_def, Option.some.injEq] at hy
    subst hy
    exact hlt x hx
  exact happ.drop _

theorem upsert_sorted (cap : Nat) (buf : List Candle) (c : Candle)
    (hs : StrictAsc buf) : StrictAsc (upsert cap buf c) := by
  cases hlast : buf.getLast? with
  | none =>
    simp only [upsert, hlast]
    exact dequeAppend_sorted cap buf c hs (by simp [hlast])
  | some last =>
    simp only [upsert, hlast]
    by_cases heq : c.t = last.t
    · rw [if_pos heq]
      have hbuf : buf.dropLast ++ [last] = buf := List.dropLast_append_getLast? last hlast
      have hchain : List.Chain' (fun a b => a.t < b.t) (buf.dropLast ++ [last]) := by
        rw [hbuf]; exact hs
      unfold StrictAsc
      rw [List.chain'_append] at hchain ⊢
      refine ⟨hchain.1, List.chain'_singleton _, ?_⟩
      intro x hx y hy
      simp only [List.head?_cons, Option.mem_def, Option.some.injEq] at hy
      subst hy
      have := hchain.2.2 x hx last (by simp)
      omega
    · rw [if_neg heq]
      by_cases hlt : last.t < c.t
      · rw [if_pos hlt]
        refine dequeAppend_sorted cap buf c hs ?_
        intro x hx
        rw [hlast] at hx
        simp only [Option.mem_def, Option.some.injEq] at hx
        subst hx; exact hlt
      · rw [if_neg hlt]; exact hs

theorem upsert_length_le (cap : Nat) (buf : List Candle) (c : Candle)
    (hlen : buf.length ≤ cap) : (upsert cap buf c).length ≤ cap := by
  cases hlast : buf.getLast? with
  | none => simp only [upsert, hlast]; rw [dequeAppend_length]; omega
  | some last =>
    simp only [upsert, hlast]
    by_cases heq : c.t = last.t
    · rw [if_pos heq]
      simp only [List.length_append, List.length_dropLast, List.length_cons,
        List.length_nil]
      have hne : buf ≠ [] := by
        intro h; subst h; simp at hlast
      have : 0 < buf.length := List.length_pos.mpr hne
      omega
    · rw [if_neg heq]
      by_cases hlt : last.t < c.t
      · rw [if_pos hlt, dequeAppend_length]; omega
      · rw [if_neg hlt]; exact hlen

theorem upsertAll_sorted_le (cap : Nat) (cs : List Candle) (buf : List Candle)
    (hs : StrictAsc buf) (hlen : buf.length ≤ cap) :
    StrictAsc (upsertAll cap buf cs) ∧ (upsertAll cap buf cs).length ≤ cap := by
  induction cs generalizing buf with
  | nil => exact ⟨hs, hlen⟩
  | cons c cs ih =>
    exact ih (upsert cap buf c) (upsert_sorted cap buf c hs)
      (upsert_length_le cap buf c hlen)

theorem strictAsc_nodup_keys (buf : List Candle) (hs : StrictAsc buf) :
    (buf.map Candle.t).Nodup := by
  haveI : IsTrans Candle (fun a b => a.t < b.t) :=
    ⟨fun _ _ _ h1 h2 => lt_trans h1 h2⟩
  have hpair : buf.Pairwise (fun a b => a.t < b.t) := by
    rw [← List.chain'_iff_pairwise]; exact hs
  rw [List.Nodup, List.pairwise_map]
  exact hpair.imp (fun h => by omega)

end MarketData

/-- C1: the stream-upsert decision rule.  With a positive capacity: on an
empty Series the candle is appended; otherwise, equal tail `openTime`
replaces the tail, strictly greater appends then evicts from the front
while the length exceeds the capacity, and strictly less leaves the Series
completely unchanged (and, the function being total, no error is raised). -/
theorem C1_upsert_decision_rule (cap : Nat) (hcap : 0 < cap)
    (buf : List Candle) (c : Candle) :
    (buf = [] → upsert cap buf c = [c]) ∧
    (∀ last, buf.getLast? = some last →
      (c.t = last.t → upsert cap buf c = buf.dropLast ++ [c]) ∧
      (last.t < c.t →
        upsert cap buf c = (buf ++ [c]).drop ((buf ++ [c]).length - cap)) ∧
      (c.t < last.t → upsert cap buf c = buf)) := by
  constructor
  · intro hbuf
    subst hbuf
    simp only [upsert, List.getLast?_nil, dequeAppend, List.nil_append,
      List.length_cons, List.length_nil]
    have : 1 - cap = 0 := by omega
    rw [this]
    rfl
  · intro last hlast
    refine ⟨?_, ?_, ?_⟩
    · intro heq
      simp [upsert, hlast, heq]
    · intro hlt
      have hne : c.t ≠ last.t := by omega
      simp [upsert, hlast, hne, hlt, dequeAppend]
    · intro hgt
      have hne : c.t ≠ last.t := by omega
      have hnlt : ¬ last.t < c.t := by omega
      simp [upsert, hlast, hne, hnlt]

/-- Witness for C1 at capacity 2. -/
theorem C1_upsert_decision_rule_witness :
    upsert 2 [⟨100, 1, 1, 1, 1, 1⟩, ⟨200, 2, 2, 2, 2, 2⟩] ⟨300, 3, 3, 3, 3, 3⟩ =
      [⟨200, 2, 2, 2, 2, 2⟩, ⟨300, 3, 3, 3, 3, 3⟩] := by
  have h := (C1_upsert_decision_rule 2 (by decide)
    [⟨100, 1, 1, 1, 1, 1⟩, ⟨200, 2, 2, 2, 2, 2⟩] ⟨300, 3, 3, 3, 3, 3⟩).2
    ⟨200, 2, 2, 2, 2, 2⟩ (by decide)
  rw [h.2.1 (by decide)]
  decide

namespace MarketData

theorem drop_one_append_singleton (buf : List Candle) (c : Candle) (hne : buf ≠ []) :
    (buf ++ [c]).drop 1 = buf.tail ++ [c] := by
  cases buf with
  | nil => exact absurd rfl hne
  | cons a as => rfl

theorem upsert_full_evicts_head (cap : Nat) (buf : List Candle) (c last : Candle)
    (hlen : buf.length = cap) (hlast : buf.getLast? = some last)
    (hlt : last.t < c.t) : upsert cap buf c = buf.tail ++ [c] := by
  have hne : buf ≠ [] := by
    intro h; subst h; simp at hlast
  have hpos : 0 < buf.length := List.length_pos.mpr hne
  have hneq : c.t ≠ last.t := by omega
  simp only [upsert, hlast]
  rw [if_neg hneq, if_pos hlt]
  simp only [dequeAppend, List.length_append, List.length_cons, List.length_nil]
  have : buf.length + 1 - cap = 1 := by omega
  rw [this]
  exact drop_one_append_singleton buf c hne

end MarketData

/-- C2: for every sequence of stream upserts applied to an initially empty
Series the stored sequence is strictly ascending by `openTime` with no
duplicate keys and its length never exceeds the capacity; moreover at an
upsert that overflows a full Series the evicted element is the front one
(the oldest, the sequence being ascending): the result is `buf.tail ++ [c]`. -/
theorem C2_empty_series_invariants (cap : Nat) (cs : List Candle) :
    StrictAsc (upsertAll cap [] cs) ∧
    ((upsertAll cap [] cs).map Candle.t).Nodup ∧
    (upsertAll cap [] cs).length ≤ cap ∧
    (∀ (buf : List Candle) (c last : Candle), buf.length = cap →
      buf.getLast? = some last → last.t < c.t →
      upsert cap buf c = buf.tail ++ [c]) := by
  have h := MarketData.upsertAll_sorted_le cap cs [] List.chain'_nil (by simp)
  exact ⟨h.1, MarketData.strictAsc_nodup_keys _ h.1, h.2,
    fun buf c last => MarketData.upsert_full_evicts_head cap buf c last⟩

/-- Witness for C2 at capacity 3: the fold invariants at a concrete upsert
sequence and the eviction equation at a concrete full buffer. -/
theorem C2_empty_series_invariants_witness :
    StrictAsc (upsertAll 3 [] [⟨100, 1, 1, 1, 1, 1⟩, ⟨200, 2, 2, 2, 2, 2⟩]) ∧
    upsert 3 [⟨10, 1, 1, 1, 1, 1⟩, ⟨20, 2, 2, 2, 2, 2⟩, ⟨30, 3, 3, 3, 3, 3⟩]
        ⟨40, 4, 4, 4, 4, 4⟩ =
      [⟨20, 2, 2, 2, 2, 2⟩, ⟨30, 3, 3, 3, 3, 3⟩, ⟨40, 4, 4, 4, 4, 4⟩] := by
  have h := C2_empty_series_invariants 3 [⟨100, 1, 1, 1, 1, 1⟩, ⟨200, 2, 2, 2, 2, 2⟩]
  refine ⟨h.1, ?_⟩
  have he := h.2.2.2 [⟨10, 1, 1, 1, 1, 1⟩, ⟨20, 2, 2, 2, 2, 2⟩, ⟨30, 3, 3, 3, 3, 3⟩]
    ⟨40, 4, 4, 4, 4, 4⟩ ⟨30, 3, 3, 3, 3, 3⟩ rfl (by decide) (by decide)
  rw [he]
  decide

/-- C3 counterexample: `deque.extend` (the backfill path, line 107) does not
apply the upsert rule.  Extending a Series whose tail already holds
`openTime = 100` with a fresh candle of the same `openTime` appends a
duplicate, while folding the upsert rule replaces the tail. -/
theorem C3_extend_vs_upsert_counterexample :
    dequeExtend 300 [⟨100, 1, 1, 1, 1, 1⟩] [⟨100, 2, 2, 2, 2, 2⟩] ≠
      upsertAll 300 [⟨100, 1, 1, 1, 1, 1⟩] [⟨100, 2, 2, 2, 2, 2⟩] := by
  decide

/-- C3 amended: when the current Series followed by the incoming ordered
candles is strictly ascending by `openTime` (the intended backfill regime:
live timestamps never older than history), bulk extend is observationally
equal to folding the single-candle upsert rule over the list, in order. -/
theorem C3_extend_refines_upsert_on_ascending (cap : Nat) (buf cs : List Candle)
    (hasc : StrictAsc (buf ++ cs)) :
    dequeExtend cap buf cs = upsertAll cap buf cs := by
  induction cs generalizing buf with
  | nil => rfl
  | cons c cs ih =>
    have hstep : upsert cap buf c = dequeAppend cap buf c := by
      cases hlast : buf.getLast? with
      | none => simp only [upsert, hlast]
      | some last =>
        have hlt : last.t < c.t := by
          unfold StrictAsc at hasc
          rw [List.chain'_append] at hasc
          exact hasc.2.2 last (by simp [hlast]) c (by simp)
        have hneq : c.t ≠ last.t := by omega
        simp only [upsert, hlast]
        rw [if_neg hneq, if_pos hlt]
    have hsuffix : (dequeAppend cap buf c) ++ cs <:+ buf ++ c :: cs := by
      obtain ⟨p, hp⟩ := List.drop_suffix ((buf ++ [c]).length - cap) (buf ++ [c])
      refine ⟨p, ?_⟩
      unfold dequeAppend
      rw [← List.append_assoc, hp, List.append_assoc]
      rfl
    have hasc' : StrictAsc ((dequeAppend cap buf c) ++ cs) :=
      List.Chain'.suffix hasc hsuffix
    simp only [dequeExtend, upsertAll, List.foldl_cons, hstep]
    exact ih (dequeAppend cap buf c) hasc'

/-- Witness for the amended C3 at a concrete ascending extension. -/
theorem C3_extend_refines_upsert_witness :
    dequeExtend 3 [⟨100, 1, 1, 1, 1, 1⟩] [⟨200, 2, 2, 2, 2, 2⟩, ⟨300, 3, 3, 3, 3, 3⟩] =
      upsertAll 3 [⟨100, 1, 1, 1, 1, 1⟩] [⟨200, 2, 2, 2, 2, 2⟩, ⟨300, 3, 3, 3, 3, 3⟩] :=
  C3_extend_refines_upsert_on_ascending 3 [⟨100, 1, 1, 1, 1, 1⟩]
    [⟨200, 2, 2, 2, 2, 2⟩, ⟨300, 3, 3, 3, 3, 3⟩] (by decide)

/-- C7 counterexample: a candle whose `openTime` (100) is already stored at a
non-tail position is dropped by the upsert rule (its `openTime` being
strictly below the tail's), so the stored element keeps its old fields and
is not replaced by the latest values as the claim states. -/
theorem C7_nontail_duplicate_counterexample :
    upsert 300 [⟨100, 1, 1, 1, 1, 1⟩, ⟨200, 2, 2, 2, 2, 2⟩] ⟨100, 9, 9, 9, 9, 9⟩ =
      [⟨100, 1, 1, 1, 1, 1⟩, ⟨200, 2, 2, 2, 2, 2⟩] ∧
    (⟨100, 9, 9, 9, 9, 9⟩ : Candle) ∉
      upsert 300 [⟨100, 1, 1, 1, 1, 1⟩, ⟨200, 2, 2, 2, 2, 2⟩] ⟨100, 9, 9, 9, 9, 9⟩ := by
  decide

/-- C7 amended: on a strictly ascending Series containing the candle's
`openTime`, re-applying the candle leaves the length unchanged; the element
is replaced by the latest field values exactly when the match is at the
tail, while a match at an earlier position drops the incoming candle and
the Series keeps its old values. -/
theorem C7_duplicate_key_upsert (cap : Nat) (buf : List Candle) (c last : Candle)
    (hs : StrictAsc buf) (hlast : buf.getLast? = some last)
    (hmem : c.t ∈ buf.map Candle.t) :
    (upsert cap buf c).length = buf.length ∧
    (c.t = last.t → upsert cap buf c = buf.dropLast ++ [c]) ∧
    (c.t ≠ last.t → upsert cap buf c = buf) := by
  have hne : buf ≠ [] := by
    intro h; subst h; simp at hlast
  have hpos : 0 < buf.length := List.length_pos.mpr hne
  haveI : IsTrans Candle (fun a b => a.t < b.t) :=
    ⟨fun _ _ _ h1 h2 => lt_trans h1 h2⟩
  have hpair : buf.Pairwise (fun a b => a.t < b.t) := by
    rw [← List.chain'_iff_pairwise]; exact hs
  have hbuf : buf.dropLast ++ [last] = buf := List.dropLast_append_getLast? last hlast
  rw [← hbuf] at hpair
  rw [List.pairwise_append] at hpair
  obtain ⟨x, hx, hxt⟩ := List.mem_map.mp hmem
  have hle : c.t ≤ last.t := by
    rw [← hbuf] at hx
    rcases List.mem_append.mp hx with hx1 | hx2
    · have := hpair.2.2 x hx1 last (by simp)
      omega
    · simp only [List.mem_singleton] at hx2
      subst hx2; omega
  by_cases heq : c.t = last.t
  · have hup : upsert cap buf c = buf.dropLast ++ [c] := by
      simp only [upsert, hlast]
      rw [if_pos heq]
    refine ⟨?_, fun _ => hup, fun hc => absurd heq hc⟩
    rw [hup]
    simp only [List.length_append, List.length_dropLast, List.length_cons,
      List.length_nil]
    omega
  · have hlt : c.t < last.t := by omega
    have hup : upsert cap buf c = buf := by
      simp only [upsert, hlast]
      rw [if_neg heq, if_neg (by omega : ¬ last.t < c.t)]
    exact ⟨by rw [hup], fun hc => absurd hc heq, fun _ => hup⟩

/-- Witness for the amended C7 at a concrete tail-matching re-application. -/
theorem C7_duplicate_key_upsert_witness :
    upsert 300 [⟨100, 1, 1, 1, 1, 1⟩, ⟨200, 2, 2, 2, 2, 2⟩] ⟨200, 9, 9, 9, 9, 9⟩ =
      [⟨100, 1, 1, 1, 1, 1⟩, ⟨200, 9, 9, 9, 9, 9⟩] := by
  have h := C7_duplicate_key_upsert 300 [⟨100, 1, 1, 1, 1, 1⟩, ⟨200, 2, 2, 2, 2, 2⟩]
    ⟨200, 9, 9, 9, 9, 9⟩ ⟨200, 2, 2, 2, 2, 2⟩ (by decide) (by decide) (by decide)
  rw [h.2.1 rfl]
  decide

/-! ## The snapshot reader `get_candles` (lines 64-71)

The nested dict `self.store[symbol][interval]` is flattened to an
association list keyed by the (symbol, interval) pair; the code's guard
`if symbol in self.store and interval in self.store[symbol]` is exactly a
lookup on that pair.  `symbol.upper()` on the ASCII ticker strings is
`Char.toUpper` mapped over the characters, and the slice `data[-limit:]`
is the whole list when `limit = 0` (Python `-0 == 0`) and the last
`limit` elements otherwise. -/

abbrev ReadStore := List ((String × String) × List Candle)

/-- Association-list lookup for one (symbol, interval) Series. -/
def lookupSeries : ReadStore → String × String → Option (List Candle)
  | [], _ => none
  | (k, v) :: rest, key => if k = key then some v else lookupSeries rest key

/-- `symbol.upper()` on ASCII ticker strings. -/
def upperStr (s : String) : String :=
  ⟨s.data.map Char.toUpper⟩

/-- Python's `data[-limit:]` for a non-negative `limit`: the whole list when
`limit = 0`, otherwise the last `limit` elements (all of them when fewer). -/
def pyTailSlice (limit : Nat) (data : List Candle) : List Candle :=
  if limit = 0 then data else data.drop (data.length - limit)

/-- `get_candles(symbol, interval, limit)`: uppercase the symbol, return the
slice of the stored Series (a copy) when the pair is present, `[]`
otherwise; the membership guard means the defaultdict creates no entry,
so the store component is returned unchanged on every path. -/
def get_candles (store : ReadStore) (symbol interval : String) (limit : Nat) :
    List Candle × ReadStore :=
  match lookupSeries store (upperStr symbol, interval) with
  | some data => (pyTailSlice limit data, store)
  | none => ([], store)

namespace MarketData

theorem toNat_ofNat_valid {n : Nat} (h : n.isValidChar) :
    (Char.ofNat n).toNat = n := by
  rw [Char.ofNat, dif_pos h]
  rfl

theorem toUpper_idem (c : Char) : c.toUpper.toUpper = c.toUpper := by
  simp only [Char.toUpper]
  by_cases h : c.toNat ≥ 97 ∧ c.toNat ≤ 122
  · rw [if_pos h]
    have hv : (Char.ofNat (c.toNat - 32)).toNat = c.toNat - 32 :=
      toNat_ofNat_valid (Or.inl (by omega))
    rw [if_neg]
    rw [hv]
    omega
  · rw [if_neg h, if_neg h]

theorem upperStr_idem (s : String) : upperStr (upperStr s) = upperStr s := by
  simp only [upperStr, List.map_map]
  congr 1
  exact List.map_congr_left (fun c _ => toUpper_idem c)

end MarketData

/-- C5 counterexample: with one candle stored, a `limit` of `0` returns that
candle rather than the empty last-`0` slice the claim demands (Python's
`data[-0:]` is the whole list). -/
theorem C5_limit_zero_counterexample :
    (get_candles [(("BTCUSDT", "1m"), [⟨100, 1, 1, 1, 1, 1⟩])] "BTCUSDT" "1m" 0).1 ≠
      ([] : List Candle) := by
  decide

/-- C5 amended: for every tracked pair with stored candles and every limit
of at least one, the snapshot returns exactly the last `limit` stored
candles in order (a suffix of the Series), or all of them when fewer than
`limit` are stored. -/
theorem C5_snapshot_last_limit (store : ReadStore) (s i : String) (limit : Nat)
    (data : List Candle) (hlook : lookupSeries store (upperStr s, i) = some data)
    (hpos : 0 < limit) :
    (get_candles store s i limit).1 = data.drop (data.length - limit) ∧
    (get_candles store s i limit).1.length = min limit data.length ∧
    (get_candles store s i limit).1 <:+ data := by
  have hres : (get_candles store s i limit).1 = data.drop (data.length - limit) := by
    simp only [get_candles, hlook, pyTailSlice]
    rw [if_neg (by omega : ¬ limit = 0)]
  refine ⟨hres, ?_, ?_⟩
  · rw [hres, List.length_drop]
    omega
  · rw [hres]
    exact List.drop_suffix _ _

/-- Witness for the amended C5: the last two of three stored candles. -/
theorem C5_snapshot_last_limit_witness :
    (get_candles [(("BTCUSDT", "1m"),
        [⟨100, 1, 1, 1, 1, 1⟩, ⟨200, 2, 2, 2, 2, 2⟩, ⟨300, 3, 3, 3, 3, 3⟩])]
      "BTCUSDT" "1m" 2).1 =
      [⟨200, 2, 2, 2, 2, 2⟩, ⟨300, 3, 3, 3, 3, 3⟩] := by
  have h := C5_snapshot_last_limit
    [(("BTCUSDT", "1m"),
      [⟨100, 1, 1, 1, 1, 1⟩, ⟨200, 2, 2, 2, 2, 2⟩, ⟨300, 3, 3, 3, 3, 3⟩])]
    "BTCUSDT" "1m" 2
    [⟨100, 1, 1, 1, 1, 1⟩, ⟨200, 2, 2, 2, 2, 2⟩, ⟨300, 3, 3, 3, 3, 3⟩]
    (by decide) (by decide)
  rw [h.1]
  decide

/-- C6: reading an unknown (symbol, interval) pair returns the empty
sequence and hands back the store unchanged; the reader is a total
function, so no error is raised. -/
theorem C6_unknown_pair_reads_empty (store : ReadStore) (s i : String)
    (limit : Nat) (hlook : lookupSeries store (upperStr s, i) = none) :
    get_candles store s i limit = ([], store) := by
  simp only [get_candles, hlook]

/-- Witness for C6: the spec's `getSnapshot("ZZZUSD", "1m", 10)` scenario on
a store holding data only for BTCUSDT. -/
theorem C6_unknown_pair_reads_empty_witness :
    get_candles [(("BTCUSDT", "1m"), [⟨100, 1, 1, 1, 1, 1⟩])] "ZZZUSD" "1m" 10 =
      ([], [(("BTCUSDT", "1m"), [⟨100, 1, 1, 1, 1, 1⟩])]) :=
  C6_unknown_pair_reads_empty [(("BTCUSDT", "1m"), [⟨100, 1, 1, 1, 1, 1⟩])]
    "ZZZUSD" "1m" 10 (by decide)

/-- C9: the snapshot reader is case-insensitive in its symbol argument
(uppercasing the symbol before the read changes nothing, `upper` being
idempotent) and case-sensitive in its interval argument (witnessed by a
store where the interval key "1m" is hit and "1M" is not). -/
theorem C9_symbol_case_insensitive (store : ReadStore) (s i : String) (n : Nat) :
    get_candles store s i n = get_candles store (upperStr s) i n ∧
    (get_candles [(("BTCUSDT", "1m"), [⟨100, 1, 1, 1, 1, 1⟩])] "btcusdt" "1m" 1).1 ≠
      (get_candles [(("BTCUSDT", "1m"), [⟨100, 1, 1, 1, 1, 1⟩])] "btcusdt" "1M" 1).1 := by
  constructor
  · simp only [get_candles, MarketData.upperStr_idem]
  · decide

/-- C10: with at least one candle stored for the pair, a `limit` of `0`
returns the entire stored Series in order, not the empty sequence. -/
theorem C10_limit_zero_returns_everything (store : ReadStore) (s i : String)
    (data : List Candle) (hlook : lookupSeries store (upperStr s, i) = some data)
    (hne : data ≠ []) :
    (get_candles store s i 0).1 = data ∧ (get_candles store s i 0).1 ≠ [] := by
  have hres : (get_candles store s i 0).1 = data := by
    simp only [get_candles, hlook, pyTailSlice, if_true]
  exact ⟨hres, by rw [hres]; exact hne⟩

/-- Witness for C10 at a two-candle store. -/
theorem C10_limit_zero_returns_everything_witness :
    (get_candles [(("ETHUSDT", "1h"), [⟨100, 1, 1, 1, 1, 1⟩, ⟨200, 2, 2, 2, 2, 2⟩])]
      "ETHUSDT" "1h" 0).1 = [⟨100, 1, 1, 1, 1, 1⟩, ⟨200, 2, 2, 2, 2, 2⟩] :=
  (C10_limit_zero_returns_everything
    [(("ETHUSDT", "1h"), [⟨100, 1, 1, 1, 1, 1⟩, ⟨200, 2, 2, 2, 2, 2⟩])]
    "ETHUSDT" "1h" [⟨100, 1, 1, 1, 1, 1⟩, ⟨200, 2, 2, 2, 2, 2⟩]
    (by decide) (by decide)).1

/-! ## The websocket reconnect loop `_ws_loop` (lines 124-142)

One loop iteration is driven by the outcome of the network interaction:
the `try` body either raises (connect failure, or any exception escaping
the message loop), ends because an ERROR-type message hit `break`, or ends
because the stream closed.  The observable events of an iteration are the
connection attempt (`ws_connect`), the fixed 5s backoff sleep of the
`except` handler (guarded by `if self.running`), and the 1s sleep of the
no-session branch.  `self.running` is modelled as constant across the
trace under scrutiny (the claim is about the service while marked
running). -/

/-- How one `try` body of `_ws_loop` ends. -/
inductive WSOutcome where
  | raised
  | errMsg
  | closed
  deriving DecidableEq, Repr

/-- Observable events of one `_ws_loop` iteration. -/
inductive WSEvent where
  | attempt
  | backoff
  | shortSleep
  deriving DecidableEq, Repr

/-- One iteration of the `while self.running` body: without a session only
the 1s sleep runs; otherwise a connection attempt is made and, only when
the body raised and the service is still running, the 5s backoff sleep
follows.  An ERROR-type message exits the message loop via `break`, which
leaves the `async with` block without raising, so no backoff runs. -/
def wsIteration (running session : Bool) (o : WSOutcome) : List WSEvent :=
  if !session then [.shortSleep]
  else match o with
  | .raised => [.attempt] ++ (if running then [.backoff] else [])
  | .errMsg => [.attempt]
  | .closed => [.attempt]

/-- The loop over a finite oracle of iteration outcomes: the flag returned
is whether the loop is still live (the `while` condition) afterwards. -/
def wsLoop (running session : Bool) : List WSOutcome → List WSEvent × Bool
  | [] => ([], running)
  | o :: os =>
    if running then
      (wsIteration running session o ++ (wsLoop running session os).1,
        (wsLoop running session os).2)
    else ([], false)

/-- C8 counterexample: a connection terminated by an ERROR-type message is a
connection failure per the claim, yet the iteration performs zero backoff
waits — `break` leaves the `try` body without an exception, so the 5s
sleep of the `except` handler never runs and the loop reconnects
immediately. -/
theorem C8_errmsg_skips_backoff_counterexample :
    (wsIteration true true .errMsg).count .backoff ≠ 1 := by
  decide

/-- C8 amended: while the service is marked running, an iteration whose body
raised performs exactly one fixed backoff wait before the next attempt; an
iteration ended by an ERROR-type message (or a clean close) performs none
and retries immediately; and the loop stays live after any finite number
of iterations. -/
theorem C8_reconnect_loop (os : List WSOutcome) :
    (wsIteration true true .raised).count .backoff = 1 ∧
    (wsIteration true true .errMsg).count .backoff = 0 ∧
    (wsIteration true true .closed).count .backoff = 0 ∧
    (wsLoop true true os).2 = true := by
  refine ⟨by decide, by decide, by decide, ?_⟩
  induction os with
  | nil => rfl
  | cons o os ih =>
    simp only [wsLoop, if_pos rfl]
    exact ih

/-! ## The message-parsing pipeline of `_process_stream_data` (lines 144-183)

Inbound websocket text frames are `json.loads`-decoded values.  We model
JSON values (`J`) and the Python dynamic semantics the code exercises:
`==` (numeric across int/float/bool, structural otherwise), `>` (numbers
and strings comparable, otherwise `TypeError`; Python's elementwise list
comparison is simplified to `TypeError`, it is unreachable in the claims),
`in` (key membership for dicts, `==`-membership for lists, substring test
for strings, `TypeError` otherwise), subscription (`KeyError` for a
missing dict key, `TypeError` for non-dict bases), `.get` (`AttributeError`
on non-dicts), `float()` (numbers and bools convert, numeric strings parse
as `[sign] digits [. digits]` - a simplification of the full Python float
grammar - everything else raises), and dict-key hashability (lists and
dicts are unhashable).  Candle prices parse to rationals; the timestamp
`k['t']` is stored raw, exactly as in the source. -/

/-- A decoded JSON value. -/
inductive J where
  | null
  | bool (b : Bool)
  | num (q : Rat)
  | str (s : String)
  | arr (xs : List J)
  | obj (fields : List (String × J))
  deriving Repr

/-- Python errors the pipeline can raise. -/
inductive PyErr where
  | typeError
  | keyError
  | valueError
  | attributeError
  deriving DecidableEq, Repr

mutual
/-- Python `==` on decoded JSON values: bools compare as the numbers 0/1,
numbers numerically, strings and containers structurally (dict comparison
is modelled order-sensitively; the code never compares dicts), values of
unrelated types are unequal, and nothing raises. -/
def pyEq : J → J → Bool
  | .null, .null => true
  | .bool a, .bool b => a == b
  | .bool a, .num q => (if a then (1 : Rat) else 0) == q
  | .num q, .bool a => q == (if a then (1 : Rat) else 0)
  | .num a, .num b => a == b
  | .str a, .str b => a == b
  | .arr a, .arr b => pyEqList a b
  | .obj a, .obj b => pyEqObj a b
  | _, _ => false
def pyEqList : List J → List J → Bool
  | [], [] => true
  | a :: as, b :: bs => pyEq a b && pyEqList as bs
  | _, _ => false
def pyEqObj : List (String × J) → List (String × J) → Bool
  | [], [] => true
  | (k1, v1) :: as, (k2, v2) :: bs => k1 == k2 && pyEq v1 v2 && pyEqObj as bs
  | _, _ => false
end

/-- Python `>`: numbers (and bools) compare numerically, strings
lexicographically; `None`, lists and dicts raise `TypeError` (a
simplification for list-vs-list, which Python compares elementwise),
as does any mixed-type comparison. -/
def pyGt : J → J → Except PyErr Bool
  | .num a, .num b => .ok (decide (b < a))
  | .num a, .bool b => .ok (decide ((if b then (1 : Rat) else 0) < a))
  | .bool a, .num b => .ok (decide (b < if a then (1 : Rat) else 0))
  | .bool a, .bool b => .ok (decide ((if b then (1 : Rat) else 0) < if a then (1 : Rat) else 0))
  | .str a, .str b => .ok (decide (b < a))
  | _, _ => .error .typeError

/-- First value stored under a key in a decoded JSON object. -/
def jGet? : List (String × J) → String → Option J
  | [], _ => none
  | (k, v) :: rest, key => if k == key then some v else jGet? rest key

/-- Python `key in payload`. -/
def pyContains (p : J) (key : String) : Except PyErr Bool :=
  match p with
  | .obj pf => .ok (pf.any (fun kv => kv.1 == key))
  | .arr xs => .ok (xs.any (fun x => pyEq x (.str key)))
  | .str s => .ok (decide (key.data <:+: s.data))
  | _ => .error .typeError

/-- Python `payload[key]` for a string key. -/
def pySubscript (p : J) (key : String) : Except PyErr J :=
  match p with
  | .obj pf =>
    match jGet? pf key with
    | some v => .ok v
    | none => .error .keyError
  | _ => .error .typeError

/-- Python `payload.get(key)`: `None` when the key is missing,
`AttributeError` when the receiver is not a dict. -/
def pyGet (p : J) (key : String) : Except PyErr J :=
  match p with
  | .obj pf =>
    .ok (match jGet? pf key with
         | some v => v
         | none => .null)
  | _ => .error .attributeError

/-- Value of a digit string. -/
def digitsToNat (ds : List Char) : Nat :=
  ds.foldl (fun acc d => acc * 10 + (d.toNat - 48)) 0

/-- Parse `[sign] digits [. digits]` as a rational (the fragment of the
Python float grammar the model covers). -/
def parseFloat? (s : String) : Option Rat :=
  let cs := s.data
  let signAndRest : Bool × List Char :=
    match cs with
    | '-' :: r => (true, r)
    | '+' :: r => (false, r)
    | _ => (false, cs)
  let intPart := signAndRest.2.takeWhile Char.isDigit
  let rest := signAndRest.2.dropWhile Char.isDigit
  let fracAndRest : List Char × List Char :=
    match rest with
    | '.' :: r => (r.takeWhile Char.isDigit, r.dropWhile Char.isDigit)
    | _ => ([], rest)
  if intPart.isEmpty && fracAndRest.1.isEmpty then none
  else if !fracAndRest.2.isEmpty then none
  else
    let q : Rat := (digitsToNat (intPart ++ fracAndRest.1) : Rat) /
      (10 : Rat) ^ fracAndRest.1.length
    some (if signAndRest.1 then -q else q)

/-- Python `float(v)`. -/
def pyFloat (v : J) : Except PyErr Rat :=
  match v with
  | .num q => .ok q
  | .bool b => .ok (if b then 1 else 0)
  | .str s =>
    match parseFloat? s with
    | some q => .ok q
    | none => .error .valueError
  | _ => .error .typeError

/-- Python dict-key hashability. -/
def hashable : J → Bool
  | .arr _ => false
  | .obj _ => false
  | _ => true

/-- A candle as built by `_process_stream_data`: the raw `k['t']` value and
the five `float(...)`-converted fields. -/
structure SCandle where
  t : J
  o : Rat
  h : Rat
  l : Rat
  c : Rat
  v : Rat

/-- The mutable store as touched by the stream path, flattened over the
two defaultdict levels and keyed by the raw (symbol, interval) values. -/
abbrev StoreJ := List ((J × J) × List SCandle)

/-- Python dict keys are identified up to `==`. -/
def keyEq (a b : J × J) : Bool :=
  pyEq a.1 b.1 && pyEq a.2 b.2

/-- The Series for a key; the defaultdict default is the empty buffer. -/
def lookupStoreJ : StoreJ → J × J → List SCandle
  | [], _ => []
  | (k, v) :: rest, key => if keyEq k key then v else lookupStoreJ rest key

/-- Writing a Series back under its key. -/
def setStoreJ : StoreJ → J × J → List SCandle → StoreJ
  | [], key, buf => [(key, buf)]
  | (k, v) :: rest, key, buf =>
    if keyEq k key then (k, buf) :: rest else (k, v) :: setStoreJ rest key buf

/-- `deque.append` with `maxlen = cap` on a stream buffer. -/
def sDequeAppend (cap : Nat) (buf : List SCandle) (c : SCandle) : List SCandle :=
  let ys := buf ++ [c]
  ys.drop (ys.length - cap)

/-- The lock section of `_process_stream_data` (lines 167-183) on the raw
values: append on empty, replace the tail on `==`, append on `>` (which
may raise `TypeError` for incomparable timestamps), drop otherwise. -/
def streamUpsert (cap : Nat) (buf : List SCandle) (c : SCandle) :
    Except PyErr (List SCandle) :=
  match buf.getLast? with
  | none => .ok (sDequeAppend cap buf c)
  | some last =>
    if pyEq c.t last.t then .ok (buf.dropLast ++ [c])
    else
      match pyGt c.t last.t with
      | .error e => .error e
      | .ok true => .ok (sDequeAppend cap buf c)
      | .ok false => .ok buf

/-- `float(k[key])`. -/
def pyFloatField (k : J) (key : String) : Except PyErr Rat :=
  match pySubscript k key with
  | .error e => .error e
  | .ok v => pyFloat v

/-- `_process_stream_data` (lines 144-183) in full: the early returns for
envelopes without `data` and for non-kline events, the field extraction in
source order (`k`, `s`, `i`, then the candle `[t, float(o), float(h),
float(l), float(c), float(v)]`), the defaultdict subscriptions (which
require hashable keys), and the lock-section upsert.  Any raised error is
the function's `Except.error` result; the store is never touched before
the final write-back. -/
def processStreamData (cap : Nat) (store : StoreJ) (payload : J) :
    Except PyErr StoreJ :=
  match pyContains payload "data" with
  | .error e => .error e
  | .ok false => .ok store
  | .ok true =>
    match pySubscript payload "data" with
    | .error e => .error e
    | .ok data =>
      match pyGet data "e" with
      | .error e => .error e
      | .ok ev =>
        if pyEq ev (.str "kline") then
          match pySubscript data "k" with
          | .error e => .error e
          | .ok k =>
            match pySubscript k "s" with
            | .error e => .error e
            | .ok symbol =>
              match pySubscript k "i" with
              | .error e => .error e
              | .ok interval =>
                match pySubscript k "t" with
                | .error e => .error e
                | .ok t =>
                  match pyFloatField k "o" with
                  | .error e => .error e
                  | .ok o =>
                    match pyFloatField k "h" with
                    | .error e => .error e
                    | .ok hi =>
                      match pyFloatField k "l" with
                      | .error e => .error e
                      | .ok lo =>
                        match pyFloatField k "c" with
                        | .error e => .error e
                        | .ok cl =>
                          match pyFloatField k "v" with
                          | .error e => .error e
                          | .ok vo =>
                            if hashable symbol && hashable interval then
                              match streamUpsert cap
                                  (lookupStoreJ store (symbol, interval))
                                  ⟨t, o, hi, lo, cl, vo⟩ with
                              | .error e => .error e
                              | .ok buf => .ok (setStoreJ store (symbol, interval) buf)
                            else .error .typeError
        else .ok store

/-- The component boundary: `_ws_loop` awaits `_process_stream_data` for
each TEXT frame inside its `try`; an escaped exception tears the
connection down (reconnect path) with the store untouched, and nothing
propagates past the loop. -/
def wsHandleMessage (cap : Nat) (store : StoreJ) (payload : J) :
    StoreJ × Bool :=
  match processStreamData cap store payload with
  | .ok s => (s, false)
  | .error _ => (store, true)

/-- A field parseable by `float()`. -/
def floatableField (kf : List (String × J)) (key : String) : Bool :=
  match jGet? kf key with
  | some v =>
    match pyFloat v with
    | .ok _ => true
    | .error _ => false
  | none => false

/-- A field present and of JSON-number type. -/
def isNumField (kf : List (String × J)) (key : String) : Bool :=
  match jGet? kf key with
  | some (.num _) => true
  | _ => false

/-- Well-formedness in the words of the claim: an envelope carrying a
`data` field whose event type is `kline`, with all candle fields present
and numeric. -/
def wellFormedClaim (payload : J) : Bool :=
  match payload with
  | .obj pf =>
    match jGet? pf "data" with
    | some (.obj df) =>
      (match jGet? df "e" with
       | some (.str s) => s == "kline"
       | _ => false) &&
      (match jGet? df "k" with
       | some (.obj kf) =>
         isNumField kf "t" && isNumField kf "o" && isNumField kf "h" &&
         isNumField kf "l" && isNumField kf "c" && isNumField kf "v" &&
         (jGet? kf "s").isSome && (jGet? kf "i").isSome
       | _ => false)
    | _ => false
  | _ => false

/-- What the code actually requires before it touches the store: a `data`
object with event type `kline` and a `k` object carrying `s` and `i`
hashable, `t` present in any shape, and the five price fields
`float()`-convertible. -/
def parsesAsKline (payload : J) : Bool :=
  match payload with
  | .obj pf =>
    match jGet? pf "data" with
    | some (.obj df) =>
      (match jGet? df "e" with
       | some (.str s) => s == "kline"
       | _ => false) &&
      (match jGet? df "k" with
       | some (.obj kf) =>
         (jGet? kf "t").isSome &&
         floatableField kf "o" && floatableField kf "h" &&
         floatableField kf "l" && floatableField kf "c" && floatableField kf "v" &&
         (match jGet? kf "s" with
          | some sv => hashable sv
          | none => false) &&
         (match jGet? kf "i" with
          | some iv => hashable iv
          | none => false)
       | _ => false)
    | _ => false
  | _ => false

namespace MarketData

theorem pySubscript_ok {p : J} {key : String} {v : J}
    (h : pySubscript p key = .ok v) :
    ∃ pf, p = .obj pf ∧ jGet? pf key = some v := by
  cases p with
  | obj pf =>
    refine ⟨pf, rfl, ?_⟩
    cases hj : jGet? pf key with
    | none => rw [pySubscript, hj] at h; cases h
    | some w => rw [pySubscript, hj] at h; cases h; rfl
  | null => cases h
  | bool b => cases h
  | num q => cases h
  | str s => cases h
  | arr xs => cases h

theorem pyGet_ok {p : J} {key : String} {v : J}
    (h : pyGet p key = .ok v) :
    ∃ pf, p = .obj pf ∧
      (jGet? pf key = some v ∨ (jGet? pf key = none ∧ v = .null)) := by
  cases p with
  | obj pf =>
    refine ⟨pf, rfl, ?_⟩
    cases hj : jGet? pf key with
    | none =>
      rw [pyGet, hj] at h
      cases h
      exact Or.inr ⟨rfl, rfl⟩
    | some w =>
      rw [pyGet, hj] at h
      cases h
      exact Or.inl rfl
  | null => cases h
  | bool b => cases h
  | num q => cases h
  | str s => cases h
  | arr xs => cases h

theorem pyEq_str_right {v : J} {s : String} (h : pyEq v (.str s) = true) :
    v = .str s := by
  cases v with
  | str a =>
    rw [pyEq] at h
    exact congrArg J.str (eq_of_beq h)
  | null => cases h
  | bool b => cases h
  | num q => cases h
  | arr xs => cases h
  | obj pf => cases h

theorem pyFloatField_ok {k : J} {key : String} {q : Rat}
    (h : pyFloatField k key = .ok q) :
    ∃ kf, k = .obj kf ∧ floatableField kf key = true := by
  cases hsub : pySubscript k key with
  | error e => rw [pyFloatField, hsub] at h; cases h
  | ok v =>
    obtain ⟨kf, rfl, hj⟩ := pySubscript_ok hsub
    rw [pyFloatField, hsub] at h
    have hfl : pyFloat v = .ok q := h
    refine ⟨kf, rfl, ?_⟩
    simp only [floatableField, hj, hfl]

theorem jGet?_some_any {pf : List (String × J)} {key : String} {v : J}
    (h : jGet? pf key = some v) :
    pf.any (fun kv => kv.1 == key) = true := by
  induction pf with
  | nil => cases h
  | cons kv rest ih =>
    obtain ⟨k1, v1⟩ := kv
    by_cases hk : k1 == key
    · simp [List.any_cons, hk]
    · rw [jGet?] at h
      rw [if_neg hk] at h
      simp [List.any_cons, hk, ih h]

end MarketData

namespace MarketData

theorem process_ok_cases (cap : Nat) (store : StoreJ) (payload : J) (s' : StoreJ)
    (h : processStreamData cap store payload = .ok s') :
    s' = store ∨ parsesAsKline payload = true := by
  unfold processStreamData at h
  split at h
  · exact absurd h (by simp)
  · cases h
    exact Or.inl rfl
  · split at h
    · exact absurd h (by simp)
    · rename_i data hdata
      split at h
      · exact absurd h (by simp)
      · rename_i ev hev
        split at h
        · -- kline event: trace the full parse
          rename_i hkline
          split at h
          · exact absurd h (by simp)
          · rename_i k hk
            split at h
            · exact absurd h (by simp)
            · rename_i symbol hsym
              split at h
              · exact absurd h (by simp)
              · rename_i interval hint
                split at h
                · exact absurd h (by simp)
                · rename_i t ht
                  split at h
                  · exact absurd h (by simp)
                  · rename_i fo ho
                    split at h
                    · exact absurd h (by simp)
                    · rename_i fh hhi
                      split at h
                      · exact absurd h (by simp)
                      · rename_i fl hlo
                        split at h
                        · exact absurd h (by simp)
                        · rename_i fc hcl
                          split at h
                          · exact absurd h (by simp)
                          · rename_i fv hvo
                            split at h
                            · rename_i hhash
                              split at h
                              · exact absurd h (by simp)
                              · right
                                obtain ⟨pf, hpayload, hjdata⟩ :=
                                  pySubscript_ok hdata
                                obtain ⟨df, hdataobj, hje⟩ := pyGet_ok hev
                                have hev' : ev = .str "kline" :=
                                  pyEq_str_right hkline
                                subst hpayload
                                subst hdataobj
                                have hje' : jGet? df "e" = some (J.str "kline") := by
                                  rcases hje with hje | ⟨_, hnull⟩
                                  · rw [← hev']; exact hje
                                  · rw [hev'] at hnull; cases hnull
                                obtain ⟨df2, hdf2, hjk⟩ := pySubscript_ok hk
                                injection hdf2 with hdf2'
                                subst hdf2'
                                obtain ⟨kf, hkobj, hjs⟩ := pySubscript_ok hsym
                                subst hkobj
                                obtain ⟨kf2, hkf2, hji⟩ := pySubscript_ok hint
                                injection hkf2 with hkf2'
                                subst hkf2'
                                obtain ⟨kf3, hkf3, hjt⟩ := pySubscript_ok ht
                                injection hkf3 with hkf3'
                                subst hkf3'
                                obtain ⟨kf4, hkf4, hffo⟩ := pyFloatField_ok ho
                                injection hkf4 with hkf4'
                                subst hkf4'
                                obtain ⟨kf5, hkf5, hffh⟩ := pyFloatField_ok hhi
                                injection hkf5 with hkf5'
                                subst hkf5'
                                obtain ⟨kf6, hkf6, hffl⟩ := pyFloatField_ok hlo
                                injection hkf6 with hkf6'
                                subst hkf6'
                                obtain ⟨kf7, hkf7, hffc⟩ := pyFloatField_ok hcl
                                injection hkf7 with hkf7'
                                subst hkf7'
                                obtain ⟨kf8, hkf8, hffv⟩ := pyFloatField_ok hvo
                                injection hkf8 with hkf8'
                                subst hkf8'
                                rw [Bool.and_eq_true] at hhash
                                have hhs : hashable symbol = true := hhash.1
                                have hhin : hashable interval = true := hhash.2
                                simp [parsesAsKline, hjdata, hje', hjk, hjt,
                                  hjs, hji, hffo, hffh, hffl, hffc, hffv,
                                  hhs, hhin]
                            · exact absurd h (by simp)
        · -- non-kline event: the store is returned unchanged
          cases h
          exact Or.inl rfl

end MarketData

/-- Claim C4 counterexample: a kline envelope whose timestamp field `t` is
the non-numeric string "x" (all other candle fields numeric) is not
well-formed in the claim's sense, yet processing it against an empty store
mutates the store: `float()` is never applied to `t`, and the empty-buffer
branch appends the candle before any timestamp comparison happens. -/
theorem C4_nonnumeric_t_mutates_counterexample :
    wellFormedClaim (J.obj [("data", J.obj [("e", J.str "kline"),
        ("k", J.obj [("s", J.str "BTCUSDT"), ("i", J.str "1m"),
          ("t", J.str "x"), ("o", J.num 1), ("h", J.num 1), ("l", J.num 1),
          ("c", J.num 1), ("v", J.num 1)])])]) = false ∧
    processStreamData 300 []
        (J.obj [("data", J.obj [("e", J.str "kline"),
          ("k", J.obj [("s", J.str "BTCUSDT"), ("i", J.str "1m"),
            ("t", J.str "x"), ("o", J.num 1), ("h", J.num 1), ("l", J.num 1),
            ("c", J.num 1), ("v", J.num 1)])])]) =
      .ok [((J.str "BTCUSDT", J.str "1m"),
        [⟨J.str "x", 1, 1, 1, 1, 1⟩])] ∧
    ([((J.str "BTCUSDT", J.str "1m"), [⟨J.str "x", 1, 1, 1, 1, 1⟩])] : StoreJ) ≠
      [] := by
  refine ⟨rfl, rfl, by simp⟩

/-- Claim C4 amended: an envelope without a `data` key, or whose event type
is not `kline`, is skipped with the store unchanged; a store mutation can
only result from a message that fully parses (event `kline`, `k` object
with hashable `s` and `i`, `t` present in any shape - not validated as
numeric - and the five price fields `float()`-convertible); and every
error raised inside processing is absorbed at the reconnect loop with the
store unchanged, so no error crosses the component boundary. -/
theorem C4_stream_message_gating (cap : Nat) (store : StoreJ) (payload : J) :
    (pyContains payload "data" = .ok false →
      processStreamData cap store payload = .ok store) ∧
    (∀ data ev, pySubscript payload "data" = .ok data →
      pyGet data "e" = .ok ev → pyEq ev (.str "kline") = false →
      processStreamData cap store payload = .ok store) ∧
    (∀ s', processStreamData cap store payload = .ok s' → s' ≠ store →
      parsesAsKline payload = true) ∧
    (∀ e, processStreamData cap store payload = .error e →
      wsHandleMessage cap store payload = (store, true)) := by
  refine ⟨?_, ?_, ?_, ?_⟩
  · intro hcd
    simp [processStreamData, hcd]
  · intro data ev hdata hev hne
    obtain ⟨pf, rfl, hj⟩ := MarketData.pySubscript_ok hdata
    have hcont : pyContains (J.obj pf) "data" = .ok true := by
      simp only [pyContains, MarketData.jGet?_some_any hj]
    simp [processStreamData, hcont, hdata, hev, hne]
  · intro s' h hne
    exact (MarketData.process_ok_cases cap store payload s' h).resolve_left hne
  · intro e he
    simp [wsHandleMessage, he]

/-- Witness for the amended C4: a data-less envelope is skipped unchanged,
and an envelope whose `data` is the number 5 raises internally
(`.get` on a non-dict) and is absorbed at the boundary, store unchanged. -/
theorem C4_stream_message_gating_witness :
    processStreamData 300 [] (J.obj [("ping", J.num 1)]) = .ok [] ∧
    wsHandleMessage 300 [] (J.obj [("data", J.num 5)]) = ([], true) := by
  constructor
  · exact (C4_stream_message_gating 300 [] (J.obj [("ping", J.num 1)])).1 rfl
  · exact (C4_stream_message_gating 300 []
      (J.obj [("data", J.num 5)])).2.2.2 PyErr.attributeError rfl
